import Mathlib

/-!
Verification development for the `paged` crate: a binary file format for large
lists of fixed-size records with side heaps for variable-length payloads.

The embedding is byte-level: a byte stream is a `List Nat` (each byte the value
written by the encoders, always `< 256` for reachable streams), the writer-side
heap (`heap::Heap`) is the byte buffer it wraps, and decoders return
`Except DErr (value × remaining stream)` mirroring `io::Result`.  Machine
integers are `Nat` with explicit `% 2 ^ w` where overflow matters; `u32`
operations that can panic (overflow, underflow, division by zero) are modelled
by `Option`-valued functions returning `none` at the panicking inputs.
-/

namespace Paged

/-- Error kinds surfaced by the decode paths (`io::ErrorKind::UnexpectedEof`
from `read_exact`, `io::ErrorKind::InvalidData` from the explicit rejects). -/
inductive DErr where
  | eof
  | invalidData
deriving DecidableEq, Repr

/-- `u8::encode` (`encode.rs`, `encode_int!`): one byte, the value itself. -/
def encodeU8 (n : Nat) : List Nat := [n % 256]

/-- `u8::decode` (`decode.rs`, `decode_int!`): read one byte. -/
def decodeU8 : List Nat → Except DErr (Nat × List Nat)
  | [] => .error .eof
  | b :: r => .ok (b, r)

/-- `u32::encode`: four bytes, big-endian (`to_be_bytes`). -/
def encodeU32 (n : Nat) : List Nat :=
  [n / 16777216 % 256, n / 65536 % 256, n / 256 % 256, n % 256]

/-- `u32::decode`: read four bytes, big-endian (`from_be_bytes`). -/
def decodeU32 : List Nat → Except DErr (Nat × List Nat)
  | b0 :: b1 :: b2 :: b3 :: r => .ok (b0 * 16777216 + b1 * 65536 + b2 * 256 + b3, r)
  | _ => .error .eof

/-- `heap::Entry::encode` (`heap.rs`): `offset: u32` then `len: u32`. -/
def entryEncode (off len : Nat) : List Nat := encodeU32 off ++ encodeU32 len

/-- `heap::Heap::insert` (`heap.rs`): record the current length as the offset,
append the flat encoding of the value (here given as its bytes). -/
def heapInsert (heap : List Nat) (bytes : List Nat) : Nat × List Nat :=
  (heap.length, heap ++ bytes)

/-- Flat encoding of a `[u8]` slice (`impl Encode for [T]`): concatenation of
the elements' flat encodings. -/
def sliceU8Encode (v : List Nat) : List Nat := (v.map encodeU8).flatten

/-- `EncodeOnHeap for Vec<T>` at `T = u8` (`encode.rs` lines 131-143): insert
the slice encoding into the heap, write an `Entry` stub `(offset, element
count)` on the page.  Returns (on-page bytes, updated heap). -/
def vecU8EncodeOnHeap (v : List Nat) (heap : List Nat) : List Nat × List Nat :=
  let r := heapInsert heap (sliceU8Encode v)
  (entryEncode r.1 v.length, r.2)

/-- `Cursor::decode_from_heap` at `T = u8` (`reader.rs` lines 60-78): save the
cursor, seek to the heap-section byte at `off`, flat-decode one `u8`, restore
the cursor.  The heap section content is `heap`; only the decoded value
matters because the cursor position is restored. -/
def cursorDecodeU8FromHeap (heap : List Nat) (off : Nat) : Except DErr Nat :=
  match heap.drop off with
  | [] => .error .eof
  | b :: _ => .ok b

/-- The element loop of `DecodeFromHeap for Vec<T>` (`decode.rs` lines
110-112): `entry.len` iterations, each calling
`input.decode_from_heap(context, heap, entry.offset)` — the same `entry.offset`
every time. -/
def vecU8DecodeLoop (heap : List Nat) (off : Nat) : Nat → Except DErr (List Nat)
  | 0 => .ok []
  | n + 1 =>
    match cursorDecodeU8FromHeap heap off with
    | .ok x =>
      match vecU8DecodeLoop heap off n with
      | .ok xs => .ok (x :: xs)
      | .error e => .error e
    | .error e => .error e

/-- `DecodeFromHeap for Vec<T>` at `T = u8` (`decode.rs` lines 101-116):
decode the `Entry` stub from the page bytes, then run the element loop. -/
def vecU8DecodeFromHeap (input heap : List Nat) : Except DErr (List Nat × List Nat) :=
  match decodeU32 input with
  | .ok (off, r1) =>
    match decodeU32 r1 with
    | .ok (len, r2) =>
      match vecU8DecodeLoop heap off len with
      | .ok xs => .ok ((xs, r2))
      | .error e => .error e
    | .error e => .error e
  | .error e => .error e

/-- `EncodeOnHeap for u8`: identical to the flat path, heap untouched. -/
def u8EncodeOnHeap (a : Nat) (heap : List Nat) : List Nat × List Nat :=
  (encodeU8 a, heap)

/-- `DecodeFromHeap for u8`: identical to the flat decode, heap unused. -/
def u8DecodeFromHeap (input : List Nat) (_heap : List Nat) : Except DErr (Nat × List Nat) :=
  decodeU8 input

/-- `EncodeOnHeap for (T1, T2)` (`encode.rs` lines 161-172), translated
verbatim: the source computes `let a = self.0.encode_on_heap(...)` and then
`let b = self.0.encode_on_heap(...)` — the first component twice; `encB` and
`p.2` are never used, exactly as `T2::encode_on_heap` and `self.1` are never
called in the source. -/
def pairEncodeOnHeap (encA : α → List Nat → List Nat × List Nat)
    (_encB : β → List Nat → List Nat × List Nat) (p : α × β) (heap : List Nat) :
    List Nat × List Nat :=
  let r1 := encA p.1 heap
  let r2 := encA p.1 r1.2
  (r1.1 ++ r2.1, r2.2)

/-- `DecodeFromHeap for (T1, T2)` (`decode.rs` lines 126-136): decode the
first component, then the second, pair them. -/
def pairDecodeFromHeap (decA : List Nat → List Nat → Except DErr (α × List Nat))
    (decB : List Nat → List Nat → Except DErr (β × List Nat))
    (input heap : List Nat) : Except DErr ((α × β) × List Nat) :=
  match decA input heap with
  | .ok (a, r1) =>
    match decB r1 heap with
    | .ok (b, r2) => .ok ((a, b), r2)
    | .error e => .error e
  | .error e => .error e

/-- A value of the two-variant test enum `enum E { A(u32), B(u8) }`, the
shape `paged-derive` generates codecs for. -/
inductive TestEnum where
  | a (x : Nat)
  | b (y : Nat)

/-- The generated `ENCODED_SIZE` for `TestEnum` (`generate.rs` lines 266-278):
`1 + max(max(0, 0 + 4), 0 + 1)` via `paged::utils::max`. -/
def testEnumEncodedSize : Nat := 1 + Nat.max (Nat.max 0 (0 + 4)) (0 + 1)

/-- The generated `Encode` for `TestEnum` (`generate.rs` lines 333-367): write
the discriminant byte, flat-encode the variant's fields, return
`ENCODED_SIZE`.  No padding bytes are emitted by the generated code.  Returns
(bytes written, returned `u32` length). -/
def testEnumEncode : TestEnum → List Nat × Nat
  | .a x => (encodeU8 0 ++ encodeU32 x, testEnumEncodedSize)
  | .b y => (encodeU8 1 ++ encodeU8 y, testEnumEncodedSize)

/-- The generated `EncodeOnHeap` for `TestEnum` (`generate.rs` lines 280-314):
same shape, fields encoded through the heap path (for integer fields that is
the flat encoding and the heap is untouched).  Returns ((bytes written,
updated heap), returned `u32` length). -/
def testEnumEncodeOnHeap (v : TestEnum) (heap : List Nat) :
    (List Nat × List Nat) × Nat :=
  match v with
  | .a x => ((encodeU8 0 ++ encodeU32 x, heap), testEnumEncodedSize)
  | .b y => ((encodeU8 1 ++ encodeU8 y, heap), testEnumEncodedSize)

/-- `Page::binary_search_by_key` (`reader/page.rs` lines 26-43): empty page
reports `Err(Equal)`; a first entry above the key reports `Err(Greater)`; a
last entry below the key reports `Err(Less)`; otherwise the page brackets the
key and `slice::binary_search_by` decides.  The std search is modelled by its
contract on the sorted pages it is used on: `Ok(i)` for an `i` whose entry
compares `Equal` when one exists (here the least such index), `Err` giving
`Err(Equal)` otherwise. -/
def pageBinarySearch (f : α → Ordering) (entries : List α) : Except Ordering Nat :=
  match entries with
  | [] => .error .eq
  | e0 :: rest =>
    if f e0 = .gt then .error .gt
    else if f ((e0 :: rest).getLast (List.cons_ne_nil e0 rest)) = .lt then .error .lt
    else
      match (e0 :: rest).findIdx? (fun a => f a == .eq) with
      | some i => .ok i
      | none => .error .eq

/-- The page-bisection loop of `Reader::binary_search_by_key` (`reader.rs`
lines 207-226), with explicit fuel: `lo`/`hi` are the source's `min`/`max`
and `pi` its `page_index`; one fuel unit is one loop iteration.  `none` means
the loop is still running after `fuel` iterations; `some none` is the
source's final `Ok(None)`; `some (some (p, i))` is a match in page `p` at
index `i`.  On `Err(Greater)` the source sets `max = page_index`, on
`Err(Less)` it sets `min = page_index`, then recomputes
`page_index = (min + max) / 2`. -/
def readerBinarySearchLoop (pages : List (List α)) (f : α → Ordering) :
    Nat → Nat → Nat → Nat → Option (Option (Nat × Nat))
  | 0, _, _, _ => none
  | fuel + 1, lo, hi, pi =>
    if pi < hi then
      match pageBinarySearch f (pages.getD pi []) with
      | .ok i => some (some (pi, i))
      | .error .gt => readerBinarySearchLoop pages f fuel lo pi ((lo + pi) / 2)
      | .error .lt => readerBinarySearchLoop pages f fuel pi hi ((pi + hi) / 2)
      | .error .eq => some none
    else some none

/-- `Reader::binary_search_by_key` (`reader.rs` lines 199-229): `min = 0`,
`max = page_count`, `page_index = max / 2`, then the loop. -/
def readerBinarySearch (pages : List (List α)) (f : α → Ordering) (fuel : Nat) :
    Option (Option (Nat × Nat)) :=
  readerBinarySearchLoop pages f fuel 0 pages.length (pages.length / 2)

/-- `Encode for Option<T>` (`encode.rs` lines 86-119): `None` is the byte `0`
followed by `ENCODED_SIZE(T)` zero bytes (`pad`); `Some(t)` is the byte `1`
followed by the flat encoding of `t`.  Parametrised by the component
codec. -/
def optionEncode (encT : α → List Nat) (sizeT : Nat) : Option α → List Nat
  | none => 0 :: List.replicate sizeT 0
  | some t => 1 :: encT t

/-- `pad` on the decode side (`decode.rs` lines 60-67): read and discard `n`
bytes one at a time, `UnexpectedEof` if the input is shorter. -/
def padRead (n : Nat) (input : List Nat) : Except DErr (List Nat) :=
  if n ≤ input.length then .ok (input.drop n) else .error .eof

/-- `Decode for Option<T>` (`decode.rs` lines 69-81): read the discriminant
byte; `0` pads over `ENCODED_SIZE(T)` bytes and yields `None`; `1` decodes a
`T`; anything else is `InvalidData`. -/
def optionDecode (decT : List Nat → Except DErr (α × List Nat)) (sizeT : Nat)
    (input : List Nat) : Except DErr (Option α × List Nat) :=
  match input with
  | [] => .error .eof
  | b :: rest =>
    if b = 0 then
      match padRead sizeT rest with
      | .ok r => .ok (none, r)
      | .error e => .error e
    else if b = 1 then
      match decT rest with
      | .ok (t, r) => .ok (some t, r)
      | .error e => .error e
    else .error .invalidData

/-- The `u8` codec with its value space made explicit (`Fin 256`), used to
instantiate the `Option<T>` theorems: encoding writes the byte, decoding
reads it back.  A stream byte `≥ 256` is unreachable from any encoder. -/
def byteEncode (a : Fin 256) : List Nat := [a.val]

/-- Decode one byte into `Fin 256`; see `byteEncode`. -/
def byteDecode : List Nat → Except DErr (Fin 256 × List Nat)
  | [] => .error .eof
  | b :: r => if h : b < 256 then .ok (⟨b, h⟩, r) else .error .invalidData

/-- The largest value representable in a `u32`. -/
def U32MAX : Nat := 4294967295

/-- `entries_per_page` as computed by `Section::{page_count, page_size,
page_of_entry}` (`section.rs` lines 23, 28, 35): `page_len / T::ENCODED_SIZE`
with `u32` (truncating) division. -/
def entriesPerPage (pageLen size : Nat) : Nat := pageLen / size

/-- `CeilingDiv for u32` (`utils.rs` lines 9-13), mathematical value:
`(self + other - 1) / other`.  Used to state what the checked geometry
operations compute when they do not panic. -/
def ceilingDiv (a b : Nat) : Nat := (a + b - 1) / b

/-- `Section::page_count` (`section.rs` lines 22-25) with the `u32` panics
made explicit: `entries_per_page = page_len / ENCODED_SIZE` panics when
`ENCODED_SIZE = 0`; inside `ceiling_div` the sum `self + other` can overflow
`u32`, the decrement underflows when the sum is zero, and the division panics
when `entries_per_page = 0` (the `ENCODED_SIZE > page_len` case).  Each
panicking evaluation is `none`, in the order Rust evaluates the expression. -/
def sectionPageCountChecked (pageLen size entryCount : Nat) : Option Nat :=
  if size = 0 then none
  else if U32MAX < entryCount + entriesPerPage pageLen size then none
  else if entryCount + entriesPerPage pageLen size = 0 then none
  else if entriesPerPage pageLen size = 0 then none
  else some ((entryCount + entriesPerPage pageLen size - 1) / entriesPerPage pageLen size)

/-- `Section::page_size` (`section.rs` lines 27-32) with the `u32` panics made
explicit: `entries_per_page * i` can overflow and
`entry_count - past_entry_count` underflows when the product exceeds the
entry count; otherwise the result is `min(entries_per_page, rest)`. -/
def sectionPageSizeChecked (pageLen size entryCount i : Nat) : Option Nat :=
  if size = 0 then none
  else if U32MAX < entriesPerPage pageLen size * i then none
  else if entryCount < entriesPerPage pageLen size * i then none
  else some (min (entriesPerPage pageLen size) (entryCount - entriesPerPage pageLen size * i))

/-- `Section::page_of_entry` (`section.rs` lines 34-39) with the `u32` panics
made explicit: both the division and the remainder panic when
`entries_per_page = 0`. -/
def sectionPageOfEntryChecked (pageLen size i : Nat) : Option (Nat × Nat) :=
  if size = 0 then none
  else if entriesPerPage pageLen size = 0 then none
  else some (i / entriesPerPage pageLen size, i % entriesPerPage pageLen size)

/-- The writer's global state (`Encoder` in `lib.rs`): the output stream
position and the global page counter `page_count`. -/
structure WriterState where
  pos : Nat
  pageCount : Nat
deriving DecidableEq, Repr

/-- The per-section encoder state (`section::Encoder` in `section.rs`):
`page_offset`, the byte length `len` written for this section (padding
included), `entry_count`, and the `empty_page` flag. -/
structure SectionState where
  pageOffset : Nat
  len : Nat
  entryCount : Nat
  emptyPage : Bool
deriving DecidableEq, Repr

/-- `section::Encoder::padding` (`section.rs` lines 119-126) and
`Heap::padding` (`heap.rs` lines 44-51): distance from `len` to the next
page-length multiple. -/
def sectionPaddingOf (pageLen len : Nat) : Nat :=
  if len % pageLen = 0 then 0 else pageLen - len % pageLen

/-- `Encoder::begin_section` (`lib.rs` lines 114-116) with
`section::Encoder::new` (`section.rs` lines 99-113): the new section records
the current global page counter as its `page_offset` and starts empty. -/
def beginSection (w : WriterState) : SectionState :=
  ⟨w.pageCount, 0, 0, true⟩

/-- `section::Encoder::push` (`section.rs` lines 140-162) for a record type
of static size `size` (a well-behaved `encode_on_heap` writes exactly
`ENCODED_SIZE` bytes to the output): write the record; if the page was
empty, bump the global page counter and clear the flag; account the bytes
and the entry; then, when the residual space of the page cannot fit another
record (`padding < ENCODED_SIZE`), emit the padding and mark the page
empty. -/
def sectionPush (pageLen size : Nat) (st : WriterState × SectionState) :
    WriterState × SectionState :=
  let w1 : WriterState := ⟨st.1.pos + size, st.1.pageCount⟩
  let w2 : WriterState := if st.2.emptyPage then ⟨w1.pos, w1.pageCount + 1⟩ else w1
  let s1 : SectionState := ⟨st.2.pageOffset, st.2.len + size, st.2.entryCount + 1, false⟩
  let padding := sectionPaddingOf pageLen s1.len
  if padding < size then
    (⟨w2.pos + padding, w2.pageCount⟩, ⟨s1.pageOffset, s1.len + padding, s1.entryCount, true⟩)
  else
    (w2, s1)

/-- `n` consecutive `push` calls. -/
def sectionPushN (pageLen size : Nat) (st : WriterState × SectionState) :
    Nat → WriterState × SectionState
  | 0 => st
  | n + 1 => sectionPush pageLen size (sectionPushN pageLen size st n)

/-- A run of `n` pushes into a fresh section begun on a page-aligned writer
positioned at `first + pc0 × P` with global page counter `pc0`. -/
def pushRun (pageLen size first pc0 n : Nat) : WriterState × SectionState :=
  sectionPushN pageLen size
    (⟨first + pc0 * pageLen, pc0⟩, beginSection ⟨first + pc0 * pageLen, pc0⟩) n

/-- `Encoder::add_heap` (`lib.rs` lines 168-182) for a heap of `heapLen`
bytes: write the bytes, pad to the next page multiple (`Heap::padding`),
advance the global page counter by `Heap::page_count = ceiling_div(len, P)`.
Returns the new writer state and the `(page_offset, page_count)`
descriptor. -/
def addHeap (pageLen : Nat) (w : WriterState) (heapLen : Nat) :
    WriterState × (Nat × Nat) :=
  let pc := ceilingDiv heapLen pageLen
  (⟨w.pos + heapLen + sectionPaddingOf pageLen heapLen, w.pageCount + pc⟩,
    (w.pageCount, pc))

/-- `reader::Error` (`reader.rs` lines 18-25): an I/O failure or pool
exhaustion. -/
inductive CacheError where
  | ioError
  | outOfMemory
deriving DecidableEq, Repr

/-- `Cache<T>` (`reader/cache.rs` lines 11-16): the index mapping global page
index to slot id (an association list, most recent insertion first, as the
`HashMap` single-writer updates behave here) and the bounded slot pool
(`none` is a free slot). -/
structure CacheState (α : Type) where
  index : List (Nat × Nat)
  pool : List (Option (List α))

/-- `Cache::index_of` (`reader/cache.rs` lines 19-21). -/
def cacheIndexOf (c : CacheState α) (k : Nat) : Option Nat :=
  (c.index.find? (fun e => e.1 == k)).map (fun e => e.2)

/-- `Cache::get` (`reader/cache.rs` lines 23-26): look the key up in the
index and return the slot's page. -/
def cacheGet (c : CacheState α) (k : Nat) : Option (List α) :=
  match cacheIndexOf c k with
  | some i => c.pool.getD i none
  | none => none

/-- `Pool::create_with`'s slot choice: the first free slot, `none` when the
pool is exhausted. -/
def poolFirstFree : List (Option (List α)) → Option Nat
  | [] => none
  | none :: _ => some 0
  | some _ :: rest => (poolFirstFree rest).map (fun j => j + 1)

/-- `Cache::set` (`reader/cache.rs` lines 28-49): acquire a slot
(`OutOfMemory` when none is available), run `init` on the empty page; on
success store the page, publish `key → slot` in the index and return the
page; on failure `pool.clear(i)` releases the slot — the pool and index are
left as they were — and the error is propagated. -/
def cacheSet (c : CacheState α) (k : Nat)
    (init : List α → Except CacheError (List α)) :
    Except CacheError (List α) × CacheState α :=
  match poolFirstFree c.pool with
  | none => (.error .outOfMemory, c)
  | some j =>
    match init [] with
    | .ok page => (.ok page, ⟨(k, j) :: c.index, c.pool.set j (some page)⟩)
    | .error e => (.error e, c)

/-- `Cache::get_or_insert` (`reader/cache.rs` lines 51-60). -/
def cacheGetOrInsert (c : CacheState α) (k : Nat)
    (init : List α → Except CacheError (List α)) :
    Except CacheError (List α) × CacheState α :=
  match cacheGet c k with
  | some page => (.ok page, c)
  | none => cacheSet c k init

/-- C1. The encode side writes the 8-byte `Entry` stub and the concatenated
element encodings, but `DecodeFromHeap for Vec<T>` decodes every element at
the same heap offset `entry.offset` (the cursor position is saved and
restored around each call), so the vector `[1, 2]` round-trips to `[1, 1]`:
the heap round-trip identity claimed for vectors with differing elements is
false. -/
theorem c1_vec_decode_repeats_first_element :
    vecU8EncodeOnHeap [1, 2] [] = ([0, 0, 0, 0, 0, 0, 0, 2], [1, 2]) ∧
    vecU8DecodeFromHeap [0, 0, 0, 0, 0, 0, 0, 2] [1, 2] = .ok ([1, 1], []) ∧
    ([1, 1] : List Nat) ≠ [1, 2] := by
  refine ⟨rfl, rfl, ?_⟩
  decide

/-- C2. `EncodeOnHeap for (T1, T2)` encodes the first component twice
(`encode.rs` lines 168-169 both read `self.0`): the pair `(1, 2)` of bytes is
written as `[1, 1]` instead of the claimed concatenation `[1] ++ [2]`, and
heap-decoding the produced bytes returns `(1, 1)`, not `(1, 2)`. -/
theorem c2_pair_encode_uses_first_component_twice :
    pairEncodeOnHeap u8EncodeOnHeap u8EncodeOnHeap (1, 2) [] = ([1, 1], []) ∧
    encodeU8 1 ++ encodeU8 2 = [1, 2] ∧
    ([1, 1] : List Nat) ≠ [1, 2] ∧
    pairDecodeFromHeap u8DecodeFromHeap u8DecodeFromHeap [1, 1] [] = .ok ((1, 1), []) ∧
    ((1, 1) : Nat × Nat) ≠ (1, 2) := by
  refine ⟨rfl, rfl, by decide, rfl, by decide⟩

/-- C3. The generated enum encoders emit the discriminant byte and the
variant's fields but no zero padding (`generate.rs` lines 280-314 and
333-367 write nothing after the fields), while still returning
`ENCODED_SIZE` as the byte count: for `enum E { A(u32), B(u8) }` the value
`B(7)` is written as the 2 bytes `[1, 7]` although `ENCODED_SIZE = 5`, so
`|heap_encode(v)| = ENCODED_SIZE` fails for the narrower variant. -/
theorem c3_enum_encoder_omits_padding :
    testEnumEncodedSize = 5 ∧
    (testEnumEncode (.b 7)).1 = [1, 7] ∧
    (testEnumEncode (.b 7)).2 = 5 ∧
    (testEnumEncodeOnHeap (.b 7) []).1.1 = [1, 7] ∧
    (testEnumEncodeOnHeap (.b 7) []).2 = 5 ∧
    (testEnumEncode (.b 7)).1.length ≠ testEnumEncodedSize ∧
    (testEnumEncodeOnHeap (.b 7) []).1.1.length ≠ testEnumEncodedSize := by
  refine ⟨rfl, rfl, rfl, rfl, rfl, by decide, by decide⟩

/-- One loop iteration when the probed page reports `Err(Less)`: the source
keeps `max`, sets `min = page_index` and re-probes `(min + max) / 2`. -/
theorem readerBinarySearchLoop_step_lt (pages : List (List α)) (f : α → Ordering)
    (fuel lo hi pi : Nat) (hlt : pi < hi)
    (hpage : pageBinarySearch f (pages[pi]?.getD []) = .error .lt) :
    readerBinarySearchLoop pages f (fuel + 1) lo hi pi =
      readerBinarySearchLoop pages f fuel pi hi ((pi + hi) / 2) := by
  simp [readerBinarySearchLoop, hlt, hpage]

/-- C4. `Reader::binary_search_by_key` does not terminate when the searched
key is greater than every entry: on a section of one page with strictly
ordered entries `[1, 2]` and comparator `fun a => compare a 5`, every probe of
page 0 reports `Err(Less)`, the loop sets `min = page_index = 0` without
advancing and re-probes page `(0 + 1) / 2 = 0` forever — for every fuel bound
the loop is still running, so the claimed finite `None` return is false. -/
theorem c4_binary_search_diverges_when_key_above_all :
    ∀ fuel : Nat,
      readerBinarySearch [[1, 2]] (fun a : Nat => compare a 5) fuel = none := by
  have hpage : pageBinarySearch (fun a : Nat => compare a 5)
      ((([[1, 2]] : List (List Nat)))[(0 : Nat)]?.getD []) = .error .lt := by rfl
  have key : ∀ fuel : Nat,
      readerBinarySearchLoop [[1, 2]] (fun a : Nat => compare a 5) fuel 0 1 0 = none := by
    intro fuel
    induction fuel with
    | zero => rfl
    | succ n ih =>
      rw [readerBinarySearchLoop_step_lt [[1, 2]] (fun a : Nat => compare a 5)
        n 0 1 0 (by decide) hpage]
      exact ih
  intro fuel
  exact key fuel

/-- Round-trip law for the explicit `u8` codec, used to discharge the
hypotheses of the `Option<T>` theorem at a concrete component type. -/
theorem byteDecode_byteEncode (a : Fin 256) (rest : List Nat) :
    byteDecode (byteEncode a ++ rest) = .ok (a, rest) := by
  simp [byteEncode, byteDecode, a.isLt]

/-- C9. The flat `Option<T>` codec for a statically sized, lawful component
codec: every encoding occupies exactly `1 + ENCODED_SIZE(T)` bytes, `None`
is the byte `0` followed by `ENCODED_SIZE(T)` zeros, `Some(t)` is the byte
`1` followed by the encoding of `t`, decoding inverts encoding while
consuming exactly the encoded bytes in both branches, and a leading byte
other than `0` or `1` is rejected as invalid-data. -/
theorem c9_option_flat_codec (encT : α → List Nat)
    (decT : List Nat → Except DErr (α × List Nat)) (sizeT : Nat)
    (hsize : ∀ a, (encT a).length = sizeT)
    (hrt : ∀ a rest, decT (encT a ++ rest) = .ok (a, rest)) :
    (∀ o : Option α, (optionEncode encT sizeT o).length = 1 + sizeT) ∧
    optionEncode encT sizeT none = 0 :: List.replicate sizeT 0 ∧
    (∀ t, optionEncode encT sizeT (some t) = 1 :: encT t) ∧
    (∀ (o : Option α) rest,
      optionDecode decT sizeT (optionEncode encT sizeT o ++ rest) = .ok (o, rest)) ∧
    (∀ b input, 2 ≤ b → optionDecode decT sizeT (b :: input) = .error .invalidData) := by
  refine ⟨?_, rfl, fun t => rfl, ?_, ?_⟩
  · intro o
    cases o with
    | none => simp [optionEncode, Nat.add_comm]
    | some t => simp [optionEncode, hsize t, Nat.add_comm]
  · intro o rest
    cases o with
    | none =>
      have hdrop : (List.replicate sizeT (0 : Nat) ++ rest).drop sizeT = rest := by
        simp
      simp [optionEncode, optionDecode, padRead, hdrop]
    | some t =>
      simp [optionEncode, optionDecode, hrt t rest]
  · intro b input hb
    have h0 : ¬ b = 0 := by omega
    have h1 : ¬ b = 1 := by omega
    simp [optionDecode, h0, h1]

/-- C9 witness: the theorem instantiated at the `u8` component codec
(`sizeT = 1`), with the hypotheses discharged and the conclusions evaluated
at concrete bytes. -/
theorem c9_option_flat_codec_witness :
    optionDecode byteDecode 1
        (optionEncode byteEncode 1 (some (7 : Fin 256)) ++ [9]) = .ok (some 7, [9]) ∧
    optionEncode byteEncode 1 (none : Option (Fin 256)) = [0, 0] ∧
    optionDecode byteDecode 1 [3, 5] = .error .invalidData := by
  have h := c9_option_flat_codec byteEncode byteDecode 1
    (fun a => rfl) (fun a rest => byteDecode_byteEncode a rest)
  exact ⟨h.2.2.2.1 (some 7) [9], h.2.1.trans rfl, h.2.2.2.2 3 [5] (by decide)⟩

/-- `ceiling_div` of zero is zero. -/
theorem ceilingDiv_zero_left (b : Nat) : ceilingDiv 0 b = 0 := by
  unfold ceilingDiv
  rcases Nat.eq_zero_or_pos b with hb | hb
  · subst hb; rfl
  · rw [Nat.zero_add]
    exact Nat.div_eq_of_lt (by omega)

/-- `ceiling_div a b` rounds up: `b` copies of it cover `a`. -/
theorem ceilingDiv_mul_ge (a b : Nat) (hb : 0 < b) : a ≤ ceilingDiv a b * b := by
  have h := Nat.div_add_mod (a + b - 1) b
  have hr : (a + b - 1) % b < b := Nat.mod_lt _ hb
  unfold ceilingDiv
  rw [Nat.mul_comm]
  generalize hbq : b * ((a + b - 1) / b) = t at h ⊢
  generalize hm : (a + b - 1) % b = r at h hr
  omega

/-- `ceiling_div a b` is the least page count: one page fewer does not
cover a positive `a`. -/
theorem ceilingDiv_pred_mul_lt (a b : Nat) (hb : 0 < b) (ha : 0 < a) :
    (ceilingDiv a b - 1) * b < a := by
  have h := Nat.div_add_mod (a + b - 1) b
  have hr : (a + b - 1) % b < b := Nat.mod_lt _ hb
  unfold ceilingDiv
  rw [Nat.sub_one_mul, Nat.mul_comm]
  generalize hbq : b * ((a + b - 1) / b) = t at h ⊢
  generalize hm : (a + b - 1) % b = r at h hr
  omega

/-- Index bound characterisation of `ceiling_div`: index `p` addresses a page
iff the entries before page `p` do not already exhaust the list. -/
theorem lt_ceilingDiv_iff (a b p : Nat) (hb : 0 < b) :
    p < ceilingDiv a b ↔ b * p < a := by
  constructor
  · intro hp
    rcases Nat.eq_zero_or_pos a with ha | ha
    · subst ha
      rw [ceilingDiv_zero_left] at hp
      omega
    · have h1 : b * p ≤ (ceilingDiv a b - 1) * b := by
        rw [Nat.mul_comm]
        exact Nat.mul_le_mul_right b (by omega)
      exact Nat.lt_of_le_of_lt h1 (ceilingDiv_pred_mul_lt a b hb ha)
  · intro hp
    by_contra hq
    push_neg at hq
    have h1 : a ≤ ceilingDiv a b * b := ceilingDiv_mul_ge a b hb
    have h2 : ceilingDiv a b * b ≤ p * b := Nat.mul_le_mul_right b hq
    rw [Nat.mul_comm p b] at h2
    exact Nat.lt_irrefl a (Nat.lt_of_le_of_lt (Nat.le_trans h1 h2) hp)

/-- Success characterisation of the checked `Section::page_count`. -/
theorem sectionPageCountChecked_eq_some (pageLen size entryCount pc : Nat) :
    sectionPageCountChecked pageLen size entryCount = some pc ↔
      size ≠ 0 ∧ entryCount + entriesPerPage pageLen size ≤ U32MAX ∧
      0 < entriesPerPage pageLen size ∧
      pc = ceilingDiv entryCount (entriesPerPage pageLen size) := by
  unfold sectionPageCountChecked ceilingDiv
  split
  · simp [*]
  · split
    · next h1 h2 => simp; omega
    · split
      · next h1 h2 h3 => simp; omega
      · split
        · next h1 h2 h3 h4 => simp; omega
        · next h1 h2 h3 h4 =>
          simp only [Option.some.injEq]
          constructor
          · intro h
            exact ⟨h1, by omega, by omega, h.symm⟩
          · intro h
            exact h.2.2.2.symm

/-- C6 counterexample: with `P = 8` and a record of `ENCODED_SIZE = 12`
nothing rejects construction — `begin_section` has no failure path — and
`entries_per_page = 0`, so `page_count` and `page_of_entry` hit a `u32`
division by zero (a panic, modelled `none`) rather than surfacing an
invalid-data error. -/
theorem c6_counterexample :
    beginSection ⟨0, 0⟩ = ⟨0, 0, 0, true⟩ ∧
    entriesPerPage 8 12 = 0 ∧
    ¬ 1 ≤ entriesPerPage 8 12 ∧
    sectionPageCountChecked 8 12 1 = none ∧
    sectionPageOfEntryChecked 8 12 0 = none := by
  exact ⟨rfl, rfl, by decide, rfl, rfl⟩

/-- C6 (amended). The library performs no geometry validation: section
construction always succeeds, and for `ENCODED_SIZE ≤ P` the quotient
`entries_per_page` is at least 1, while for `ENCODED_SIZE > P` it is 0 and
`page_count`/`page_of_entry` panic with a `u32` division by zero (modelled
`none`) instead of returning an invalid-data error; callers must supply
`ENCODED_SIZE ≤ P` themselves for the geometry to be usable. -/
theorem c6_no_construction_check (pageLen size entryCount i : Nat)
    (hsize : 0 < size) :
    (size ≤ pageLen → 1 ≤ entriesPerPage pageLen size) ∧
    (pageLen < size →
      entriesPerPage pageLen size = 0 ∧
      sectionPageCountChecked pageLen size entryCount = none ∧
      sectionPageOfEntryChecked pageLen size i = none) := by
  constructor
  · intro hle
    exact (Nat.one_le_div_iff hsize).mpr hle
  · intro hlt
    have h0 : entriesPerPage pageLen size = 0 := Nat.div_eq_of_lt hlt
    refine ⟨h0, ?_, ?_⟩
    · unfold sectionPageCountChecked
      rw [if_neg (by omega), h0]
      simp
    · unfold sectionPageOfEntryChecked
      rw [if_neg (by omega), h0]
      simp

/-- C6 witness: the amended theorem applied at `P = 64, S = 12` (usable) and
at `P = 8, S = 12` (the violated precondition). -/
theorem c6_no_construction_check_witness :
    1 ≤ entriesPerPage 64 12 ∧
    entriesPerPage 8 12 = 0 ∧
    sectionPageCountChecked 8 12 5 = none ∧
    sectionPageOfEntryChecked 8 12 3 = none := by
  have h1 := c6_no_construction_check 64 12 0 0 (by decide)
  have h2 := c6_no_construction_check 8 12 5 3 (by decide)
  exact ⟨h1.1 (by decide), (h2.2 (by decide)).1, (h2.2 (by decide)).2.1,
    (h2.2 (by decide)).2.2⟩

/-- C8. Section geometry with `entries_per_page = ⌊P / S⌋ ≥ 1` and the
`ceiling_div` arithmetic in `u32` range: `page_count` is the ceiling of
`entry_count / entries_per_page` (0 for an empty section, covering all
entries, one page fewer not covering them), index `p` addresses a page iff
`entries_per_page × p < entry_count`, and then
`page_size p = min(entries_per_page, entry_count − p × entries_per_page)`;
`page_of_entry i = (i div entries_per_page, i mod entries_per_page)`; the
concrete scenario `S = 12, P = 64, entry_count = 12` is evaluated in the
witness. -/
theorem c8_section_geometry (pageLen size entryCount p i : Nat)
    (hsize : 0 < size) (hepp : 1 ≤ entriesPerPage pageLen size)
    (hrange : entryCount + entriesPerPage pageLen size ≤ U32MAX) :
    sectionPageCountChecked pageLen size entryCount
        = some (ceilingDiv entryCount (entriesPerPage pageLen size)) ∧
    (entryCount = 0 → sectionPageCountChecked pageLen size entryCount = some 0) ∧
    entryCount ≤ ceilingDiv entryCount (entriesPerPage pageLen size)
        * entriesPerPage pageLen size ∧
    (0 < entryCount →
      (ceilingDiv entryCount (entriesPerPage pageLen size) - 1)
          * entriesPerPage pageLen size < entryCount) ∧
    (p < ceilingDiv entryCount (entriesPerPage pageLen size)
      ↔ entriesPerPage pageLen size * p < entryCount) ∧
    (entriesPerPage pageLen size * p < entryCount →
      sectionPageSizeChecked pageLen size entryCount p
        = some (min (entriesPerPage pageLen size)
            (entryCount - entriesPerPage pageLen size * p))) ∧
    sectionPageOfEntryChecked pageLen size i
      = some (i / entriesPerPage pageLen size, i % entriesPerPage pageLen size) := by
  have hcount : sectionPageCountChecked pageLen size entryCount
      = some (ceilingDiv entryCount (entriesPerPage pageLen size)) :=
    (sectionPageCountChecked_eq_some pageLen size entryCount _).mpr
      ⟨by omega, hrange, by omega, rfl⟩
  refine ⟨hcount, ?_, ceilingDiv_mul_ge _ _ (by omega), ?_, ?_, ?_, ?_⟩
  · intro h0
    rw [hcount, h0, ceilingDiv_zero_left]
  · intro hpos
    exact ceilingDiv_pred_mul_lt _ _ (by omega) hpos
  · exact lt_ceilingDiv_iff entryCount (entriesPerPage pageLen size) p (by omega)
  · intro hp
    have hle : entriesPerPage pageLen size * p ≤ U32MAX :=
      Nat.le_trans (Nat.le_of_lt hp) (by omega)
    unfold sectionPageSizeChecked
    rw [if_neg (by omega), if_neg (Nat.not_lt.mpr hle),
      if_neg (Nat.not_lt.mpr (Nat.le_of_lt hp))]
  · unfold sectionPageOfEntryChecked
    rw [if_neg (by omega), if_neg (by omega)]

/-- C8 witness: the concrete scenario `ENCODED_SIZE = 12`, `P = 64`,
`entry_count = 12`: five entries per page, three pages of sizes 5, 5, 2, and
entry 11 lives at page 2, slot 1. -/
theorem c8_section_geometry_witness :
    entriesPerPage 64 12 = 5 ∧
    sectionPageCountChecked 64 12 12 = some 3 ∧
    sectionPageSizeChecked 64 12 12 0 = some 5 ∧
    sectionPageSizeChecked 64 12 12 1 = some 5 ∧
    sectionPageSizeChecked 64 12 12 2 = some 2 ∧
    sectionPageOfEntryChecked 64 12 11 = some (2, 1) := by
  have h0 := c8_section_geometry 64 12 12 0 11 (by decide) (by decide) (by decide)
  have h1 := c8_section_geometry 64 12 12 1 11 (by decide) (by decide) (by decide)
  have h2 := c8_section_geometry 64 12 12 2 11 (by decide) (by decide) (by decide)
  refine ⟨rfl, h0.1.trans (by decide), ?_, ?_, ?_, h0.2.2.2.2.2.2.trans (by decide)⟩
  · exact (h0.2.2.2.2.2.1 (by decide)).trans (by decide)
  · exact (h1.2.2.2.2.2.1 (by decide)).trans (by decide)
  · exact (h2.2.2.2.2.2.1 (by decide)).trans (by decide)

/-- C10. `Section::page_size` is a partial function of the page index: when
`page_count` evaluates without panicking and `i < page_count`, the `u32`
subtraction `entry_count − i × entries_per_page` cannot underflow and the
result lies between 1 and `entries_per_page`; when
`i × entries_per_page > entry_count` the evaluation panics (`none`) instead
of returning 0; and `page_count` itself overflows `u32` whenever
`entry_count + entries_per_page − 1` exceeds `u32::MAX`. -/
theorem c10_page_size_domain (pageLen size entryCount i : Nat)
    (hsize : 0 < size) :
    (1 ≤ entriesPerPage pageLen size → entryCount ≤ U32MAX →
      i < ceilingDiv entryCount (entriesPerPage pageLen size) →
      ∃ r, sectionPageSizeChecked pageLen size entryCount i = some r ∧
        1 ≤ r ∧ r ≤ entriesPerPage pageLen size) ∧
    (entryCount < entriesPerPage pageLen size * i →
      sectionPageSizeChecked pageLen size entryCount i = none) ∧
    (U32MAX < entryCount + entriesPerPage pageLen size - 1 →
      sectionPageCountChecked pageLen size entryCount = none) := by
  refine ⟨?_, ?_, ?_⟩
  · intro hepp hle hi
    have hlt : entriesPerPage pageLen size * i < entryCount :=
      (lt_ceilingDiv_iff entryCount (entriesPerPage pageLen size) i hepp).mp hi
    have hm : entriesPerPage pageLen size * i ≤ U32MAX :=
      Nat.le_trans (Nat.le_of_lt hlt) (by omega)
    refine ⟨min (entriesPerPage pageLen size)
      (entryCount - entriesPerPage pageLen size * i), ?_, ?_, Nat.min_le_left _ _⟩
    · unfold sectionPageSizeChecked
      rw [if_neg (by omega), if_neg (Nat.not_lt.mpr hm),
        if_neg (Nat.not_lt.mpr (Nat.le_of_lt hlt))]
    · refine Nat.le_min.mpr ⟨hepp, ?_⟩
      generalize hmm : entriesPerPage pageLen size * i = m at hlt
      omega
  · intro hover
    unfold sectionPageSizeChecked
    rw [if_neg (by omega)]
    rcases Nat.lt_or_ge U32MAX (entriesPerPage pageLen size * i) with hc | hc
    · rw [if_pos hc]
    · rw [if_neg (Nat.not_lt.mpr hc), if_pos hover]
  · intro hover
    unfold sectionPageCountChecked
    rw [if_neg (by omega), if_pos (by omega)]

/-- C10 witness: `P = 64, S = 12, entry_count = 12` gives a well-defined
`page_size` at page 2 but a panic at page 4; `P = 2^31, S = 2^30,
entry_count = u32::MAX` overflows `page_count`. -/
theorem c10_page_size_domain_witness :
    (∃ r, sectionPageSizeChecked 64 12 12 2 = some r ∧
      1 ≤ r ∧ r ≤ entriesPerPage 64 12) ∧
    sectionPageSizeChecked 64 12 12 4 = none ∧
    sectionPageCountChecked 2147483648 1073741824 4294967295 = none := by
  have h1 := c10_page_size_domain 64 12 12 2 (by decide)
  have h2 := c10_page_size_domain 64 12 12 4 (by decide)
  have h3 := c10_page_size_domain 2147483648 1073741824 4294967295 0 (by decide)
  exact ⟨h1.1 (by decide) (by decide) (by decide), h2.2.1 (by decide), h3.2.2 (by decide)⟩

/-- A slot handed out by the pool is inside the pool. -/
theorem poolFirstFree_lt_length (pool : List (Option (List α))) (j : Nat)
    (h : poolFirstFree pool = some j) : j < pool.length := by
  induction pool generalizing j with
  | nil => simp [poolFirstFree] at h
  | cons s rest ih =>
    cases s with
    | none =>
      rw [poolFirstFree] at h
      cases h
      simp
    | some pg =>
      rw [poolFirstFree] at h
      cases heq : poolFirstFree rest with
      | none => rw [heq] at h; cases h
      | some j0 =>
        rw [heq] at h
        cases h
        have := ih j0 heq
        simp only [List.length_cons]
        omega

/-- Reading back the slot just stored. -/
theorem getD_set_self (pool : List (Option (List α))) (j : Nat) (v : Option (List α))
    (h : j < pool.length) : (pool.set j v).getD j none = v := by
  induction pool generalizing j with
  | nil => simp at h
  | cons s rest ih =>
    cases j with
    | zero => rfl
    | succ n =>
      have hn : n < rest.length := by simpa using h
      simpa [List.getD] using ih n hn

/-- The freshly published index entry is found first. -/
theorem cacheIndexOf_cons_self (idx : List (Nat × Nat)) (pool : List (Option (List α)))
    (k j : Nat) :
    cacheIndexOf (⟨(k, j) :: idx, pool⟩ : CacheState α) k = some j := by
  simp [cacheIndexOf, List.find?]

/-- C7. `Cache::get_or_insert` contract: a key already in the index returns
the resident page and leaves the cache unchanged; otherwise a fresh slot is
taken and `init` runs on the empty page — on success the key is published
over that slot and the initialized page is returned (and a later lookup sees
it); on failure the slot is released, the cache is exactly as before (a
later lookup of the key finds nothing) and the error is propagated; when the
pool has no free slot the out-of-memory error is returned. -/
theorem c7_cache_get_or_insert (c : CacheState α) (k j : Nat) (page : List α)
    (e : CacheError) (init : List α → Except CacheError (List α)) :
    (cacheGet c k = some page → cacheGetOrInsert c k init = (.ok page, c)) ∧
    (cacheGet c k = none → poolFirstFree c.pool = some j → init [] = .ok page →
      cacheGetOrInsert c k init
          = (.ok page, ⟨(k, j) :: c.index, c.pool.set j (some page)⟩) ∧
        cacheGet (⟨(k, j) :: c.index, c.pool.set j (some page)⟩ : CacheState α) k
          = some page) ∧
    (cacheGet c k = none → poolFirstFree c.pool = some j → init [] = .error e →
      cacheGetOrInsert c k init = (.error e, c) ∧
        cacheGet (cacheGetOrInsert c k init).2 k = none) ∧
    (cacheGet c k = none → poolFirstFree c.pool = none →
      cacheGetOrInsert c k init = (.error .outOfMemory, c)) := by
  refine ⟨?_, ?_, ?_, ?_⟩
  · intro h
    simp [cacheGetOrInsert, h]
  · intro hmiss hfree hinit
    constructor
    · simp [cacheGetOrInsert, cacheSet, hmiss, hfree, hinit]
    · rw [cacheGet, cacheIndexOf_cons_self]
      exact getD_set_self c.pool j (some page) (poolFirstFree_lt_length c.pool j hfree)
  · intro hmiss hfree hinit
    have hrun : cacheGetOrInsert c k init = (.error e, c) := by
      simp [cacheGetOrInsert, cacheSet, hmiss, hfree, hinit]
    exact ⟨hrun, by rw [hrun]; exact hmiss⟩
  · intro hmiss hfree
    simp [cacheGetOrInsert, cacheSet, hmiss, hfree]

/-- C7 witness: a one-slot cache over `Nat` pages exercising the four
branches — hit, miss-and-initialize, failing `init`, and pool
exhaustion. -/
theorem c7_cache_get_or_insert_witness :
    cacheGetOrInsert (⟨[(0, 0)], [some [42]]⟩ : CacheState Nat) 0
        (fun p => .ok (p ++ [42])) = (.ok [42], ⟨[(0, 0)], [some [42]]⟩) ∧
    cacheGetOrInsert (⟨[], [none]⟩ : CacheState Nat) 0
        (fun p => .ok (p ++ [42])) = (.ok [42], ⟨[(0, 0)], [some [42]]⟩) ∧
    cacheGetOrInsert (⟨[], [none]⟩ : CacheState Nat) 0
        (fun _ => .error .ioError) = (.error .ioError, ⟨[], [none]⟩) ∧
    cacheGetOrInsert (⟨[], []⟩ : CacheState Nat) 0
        (fun p => .ok (p ++ [42])) = (.error .outOfMemory, ⟨[], []⟩) := by
  have h1 := c7_cache_get_or_insert (⟨[(0, 0)], [some [42]]⟩ : CacheState Nat) 0 0 [42]
    .ioError (fun p => .ok (p ++ [42]))
  have h2 := c7_cache_get_or_insert (⟨[], [none]⟩ : CacheState Nat) 0 0 [42]
    .ioError (fun p => .ok (p ++ [42]))
  have h3 := c7_cache_get_or_insert (⟨[], [none]⟩ : CacheState Nat) 0 0 [42]
    .ioError (fun _ => .error .ioError)
  have h4 := c7_cache_get_or_insert (⟨[], []⟩ : CacheState Nat) 0 0 [42]
    .ioError (fun p => .ok (p ++ [42]))
  exact ⟨h1.1 rfl, (h2.2.1 rfl rfl rfl).1, (h3.2.2.1 rfl rfl rfl).1, h4.2.2.2 rfl rfl⟩

/-- C5 counterexample: with `P = 64`, `ENCODED_SIZE = 12`,
`first_page_offset = 0`, a single `push` on a fresh encoder leaves the
stream at byte 12 while `encoder.page_count = 1` — the counter already
counts the partially filled page — so no `partial` with
`0 ≤ partial < 64` satisfies `12 = 0 + 1 × 64 + partial`. -/
theorem c5_counterexample :
    (sectionPush 64 12 (⟨0, 0⟩, beginSection ⟨0, 0⟩)).1.pos = 12 ∧
    (sectionPush 64 12 (⟨0, 0⟩, beginSection ⟨0, 0⟩)).1.pageCount = 1 ∧
    ¬ ∃ q, q < 64 ∧
      (sectionPush 64 12 (⟨0, 0⟩, beginSection ⟨0, 0⟩)).1.pos
        = 0 + (sectionPush 64 12 (⟨0, 0⟩, beginSection ⟨0, 0⟩)).1.pageCount * 64 + q := by
  refine ⟨rfl, rfl, ?_⟩
  rintro ⟨q, hq, he⟩
  have he' : 12 = 0 + 1 * 64 + q := he
  omega

/-- `push` grows the section length by the record plus the padding emitted
when the page cannot fit another record. -/
theorem sectionPush_snd_len (pageLen size : Nat) (st : WriterState × SectionState) :
    (sectionPush pageLen size st).2.len
      = st.2.len + size
        + (if sectionPaddingOf pageLen (st.2.len + size) < size
            then sectionPaddingOf pageLen (st.2.len + size) else 0) := by
  unfold sectionPush
  by_cases h : sectionPaddingOf pageLen (st.2.len + size) < size <;> simp [h]

/-- `push` leaves the page empty exactly when it emitted the padding. -/
theorem sectionPush_snd_emptyPage (pageLen size : Nat) (st : WriterState × SectionState) :
    (sectionPush pageLen size st).2.emptyPage
      = decide (sectionPaddingOf pageLen (st.2.len + size) < size) := by
  unfold sectionPush
  by_cases h : sectionPaddingOf pageLen (st.2.len + size) < size <;> simp [h]

/-- The stream advances by the record plus any emitted padding. -/
theorem sectionPush_fst_pos (pageLen size : Nat) (st : WriterState × SectionState) :
    (sectionPush pageLen size st).1.pos
      = st.1.pos + size
        + (if sectionPaddingOf pageLen (st.2.len + size) < size
            then sectionPaddingOf pageLen (st.2.len + size) else 0) := by
  unfold sectionPush
  by_cases hep : st.2.emptyPage <;>
    by_cases h : sectionPaddingOf pageLen (st.2.len + size) < size <;> simp [hep, h]

/-- The global page counter is bumped exactly when the push began a page. -/
theorem sectionPush_fst_pageCount (pageLen size : Nat) (st : WriterState × SectionState) :
    (sectionPush pageLen size st).1.pageCount
      = if st.2.emptyPage then st.1.pageCount + 1 else st.1.pageCount := by
  unfold sectionPush
  by_cases hep : st.2.emptyPage <;>
    by_cases h : sectionPaddingOf pageLen (st.2.len + size) < size <;> simp [hep, h]

/-- Invariant of a push run: the section length splits into whole pages plus
a fill `< P` whose residual space can hold another record, `empty_page`
tracks a zero fill, the stream position is the aligned section start plus
the section length, and the global page counter counts the pages the section
has started (the partially filled page included). -/
theorem pushRun_invariant (pageLen size first pc0 : Nat) (hs : 0 < size)
    (hsp : size ≤ pageLen) (n : Nat) :
    ∃ k fill,
      (pushRun pageLen size first pc0 n).2.len = k * pageLen + fill ∧
      fill < pageLen ∧
      (fill = 0 ∨ size ≤ pageLen - fill) ∧
      (pushRun pageLen size first pc0 n).2.emptyPage = (fill == 0) ∧
      (pushRun pageLen size first pc0 n).1.pos
        = first + pc0 * pageLen + (pushRun pageLen size first pc0 n).2.len ∧
      (pushRun pageLen size first pc0 n).1.pageCount
        = pc0 + k + (if fill = 0 then 0 else 1) := by
  have hp : 0 < pageLen := Nat.lt_of_lt_of_le hs hsp
  induction n with
  | zero =>
    refine ⟨0, 0, by simp [pushRun, sectionPushN, beginSection], hp,
      Or.inl rfl, rfl, by simp [pushRun, sectionPushN, beginSection], ?_⟩
    simp [pushRun, sectionPushN, beginSection]
  | succ n ih =>
    obtain ⟨k, fill, hlen, hfill, hroom, hep, hpos, hpc⟩ := ih
    have hfs : fill + size ≤ pageLen := by rcases hroom with h | h <;> omega
    set st := pushRun pageLen size first pc0 n with hst
    have hstep : pushRun pageLen size first pc0 (n + 1) = sectionPush pageLen size st := rfl
    rw [hstep]
    have hmod : (st.2.len + size) % pageLen = (fill + size) % pageLen := by
      rw [hlen, Nat.add_assoc, Nat.mul_comm k pageLen, Nat.mul_add_mod]
    rcases Nat.lt_or_ge (fill + size) pageLen with hlt | hge
    · have hmod2 : (st.2.len + size) % pageLen = fill + size := by
        rw [hmod, Nat.mod_eq_of_lt hlt]
      have hpadval : sectionPaddingOf pageLen (st.2.len + size) = pageLen - (fill + size) := by
        unfold sectionPaddingOf
        rw [hmod2, if_neg (by omega)]
      by_cases hpad : pageLen - (fill + size) < size
      · refine ⟨k + 1, 0, ?_, hp, Or.inl rfl, ?_, ?_, ?_⟩
        · rw [sectionPush_snd_len, hpadval, if_pos hpad, hlen]
          have hx : (k + 1) * pageLen = k * pageLen + pageLen := by ring
          omega
        · rw [sectionPush_snd_emptyPage, hpadval]
          simp [hpad]
        · rw [sectionPush_fst_pos, sectionPush_snd_len, hpadval, if_pos hpad, hpos, hlen]
          omega
        · rw [sectionPush_fst_pageCount, hep, hpc]
          by_cases h0 : fill = 0 <;> simp [h0] <;> omega
      · refine ⟨k, fill + size, ?_, hlt, Or.inr (by omega), ?_, ?_, ?_⟩
        · rw [sectionPush_snd_len, hpadval, if_neg hpad, hlen]
          omega
        · rw [sectionPush_snd_emptyPage, hpadval]
          simp only [decide_eq_false (by omega : ¬ pageLen - (fill + size) < size)]
          have : fill + size ≠ 0 := by omega
          simp [this]
        · rw [sectionPush_fst_pos, sectionPush_snd_len, hpadval, if_neg hpad, hpos, hlen]
          omega
        · rw [sectionPush_fst_pageCount, hep, hpc]
          have hne : fill + size ≠ 0 := by omega
          have hsne : size ≠ 0 := by omega
          by_cases h0 : fill = 0 <;> simp [h0, hne, hsne]
    · have heq : fill + size = pageLen := Nat.le_antisymm hfs hge
      have hmod2 : (st.2.len + size) % pageLen = 0 := by
        rw [hmod, heq, Nat.mod_self]
      have hpadval : sectionPaddingOf pageLen (st.2.len + size) = 0 := by
        unfold sectionPaddingOf
        rw [hmod2, if_pos rfl]
      refine ⟨k + 1, 0, ?_, hp, Or.inl rfl, ?_, ?_, ?_⟩
      · rw [sectionPush_snd_len, hpadval, if_pos hs, hlen]
        have hx : (k + 1) * pageLen = k * pageLen + pageLen := by ring
        omega
      · rw [sectionPush_snd_emptyPage, hpadval]
        simp [hs]
      · rw [sectionPush_fst_pos, sectionPush_snd_len, hpadval, if_pos hs, hpos, hlen]
        omega
      · rw [sectionPush_fst_pageCount, hep, hpc]
        by_cases h0 : fill = 0 <;> simp [h0] <;> omega

/-- A heap's bytes plus its tail padding fill whole pages exactly. -/
theorem len_add_padding (pageLen len : Nat) (hp : 0 < pageLen) :
    len + sectionPaddingOf pageLen len = ceilingDiv len pageLen * pageLen := by
  have hdm := Nat.div_add_mod len pageLen
  by_cases h0 : len % pageLen = 0
  · obtain ⟨q, hq⟩ : ∃ q, len = pageLen * q := ⟨len / pageLen, by omega⟩
    subst hq
    unfold sectionPaddingOf ceilingDiv
    rw [if_pos h0]
    have hdiv : (pageLen * q + pageLen - 1) / pageLen = q := by
      rw [Nat.add_sub_assoc (by omega : 1 ≤ pageLen), Nat.mul_add_div hp,
        Nat.div_eq_of_lt (by omega), Nat.add_zero]
    rw [hdiv, Nat.add_zero, Nat.mul_comm]
  · obtain ⟨q, r, hrpos, hrlt, hqr⟩ :
        ∃ q r, 0 < r ∧ r < pageLen ∧ len = pageLen * q + r :=
      ⟨len / pageLen, len % pageLen, by omega, Nat.mod_lt _ hp, by omega⟩
    subst hqr
    have hmodr : (pageLen * q + r) % pageLen = r := by
      rw [Nat.mul_add_mod, Nat.mod_eq_of_lt hrlt]
    unfold sectionPaddingOf ceilingDiv
    rw [hmodr, if_neg (by omega)]
    have hdiv : (pageLen * q + r + pageLen - 1) / pageLen = q + 1 := by
      have h1 : pageLen * q + r + pageLen - 1 = pageLen * q + (r - 1 + pageLen) := by omega
      rw [h1, Nat.mul_add_div hp, Nat.add_div_right _ hp, Nat.div_eq_of_lt (by omega)]
    rw [hdiv]
    have hx : (q + 1) * pageLen = pageLen * q + pageLen := by ring
    omega

/-- C5 (amended). After every `push` of a run begun on a page-aligned
writer, the stream position satisfies
`pos + gap = first_page_offset + encoder.page_count × P` for some
`gap < P` — `page_count` is the ceiling of the pages the bytes occupy,
counting the partially filled page, not the floor the claim stated — and
`add_heap` called on a page-aligned writer returns page-aligned:
`pos = first_page_offset + encoder.page_count × P` exactly. -/
theorem c5_writer_position (pageLen size first pc0 heapLen n : Nat)
    (w : WriterState) (hs : 0 < size) (hsp : size ≤ pageLen)
    (hw : w.pos = first + w.pageCount * pageLen) :
    (∃ gap, gap < pageLen ∧
      (pushRun pageLen size first pc0 n).1.pos + gap
        = first + (pushRun pageLen size first pc0 n).1.pageCount * pageLen) ∧
    (addHeap pageLen w heapLen).1.pos
      = first + (addHeap pageLen w heapLen).1.pageCount * pageLen := by
  constructor
  · obtain ⟨k, fill, hlen, hfill, hroom, hep, hpos, hpc⟩ :=
      pushRun_invariant pageLen size first pc0 hs hsp n
    by_cases h0 : fill = 0
    · refine ⟨0, by omega, ?_⟩
      rw [hpos, hlen, hpc, if_pos h0, h0]
      have hx : (pc0 + k + 0) * pageLen = pc0 * pageLen + k * pageLen := by ring
      omega
    · refine ⟨pageLen - fill, by omega, ?_⟩
      rw [hpos, hlen, hpc, if_neg h0]
      have hx : (pc0 + k + 1) * pageLen = pc0 * pageLen + k * pageLen + pageLen := by ring
      omega
  · have hpad := len_add_padding pageLen heapLen (by omega)
    show w.pos + heapLen + sectionPaddingOf pageLen heapLen
        = first + (w.pageCount + ceilingDiv heapLen pageLen) * pageLen
    rw [hw]
    have hx : (w.pageCount + ceilingDiv heapLen pageLen) * pageLen
        = w.pageCount * pageLen + ceilingDiv heapLen pageLen * pageLen := by ring
    omega

/-- C5 witness: `P = 64`, `ENCODED_SIZE = 12`, three pushes from a fresh
aligned encoder, and a 100-byte heap appended to an aligned writer. -/
theorem c5_writer_position_witness :
    (∃ gap, gap < 64 ∧
      (pushRun 64 12 0 0 3).1.pos + gap
        = 0 + (pushRun 64 12 0 0 3).1.pageCount * 64) ∧
    (addHeap 64 ⟨0, 0⟩ 100).1.pos
      = 0 + (addHeap 64 ⟨0, 0⟩ 100).1.pageCount * 64 :=
  c5_writer_position 64 12 0 0 100 3 ⟨0, 0⟩ (by decide) (by decide) rfl

end Paged
